import Mathlib

/-!
Verification of the scanner-bot repository (src/index.js).

Each section embeds one component of the source as executable Lean
definitions, translated line by line from the JavaScript, and proves the
frozen claims about them.  JavaScript strings are modelled as Lean
strings or as lists of characters, JavaScript numbers as Nat / Int / Rat
(with the one place where IEEE-754 binary64 rounding is observable,
robuxAfterFee, modelled exactly).
-/

/-! ### Payout computation (src/index.js lines 120-122)

JavaScript source:
  function robuxAfterFee(price) { return Math.floor(price * 0.7); }

JavaScript numbers are IEEE-754 binary64 values and the literal 0.7 is
not representable: the double nearest to 0.7 is fl07num / 2^53.  The
product price * 0.7 is the binary64 value nearest (ties to even) to the
exact rational price * fl07num / 2^53.  The model below computes
Math.floor of that rounded product exactly, for every price that is an
integer below 2^53 (every price the marketplace API can deliver). -/

/-- Numerator of the binary64 value nearest to the literal 0.7:
the double is fl07num / 2^53 (= 0.6999999999999999555910790149937...). -/
def fl07num : Nat := 6305039478318694

/-- Round a/d to the nearest integer, ties to even (d > 0):
the rounding rule binary64 arithmetic uses. -/
def rne (a d : Nat) : Nat :=
  let q := a / d
  let r := a % d
  if 2 * r < d then q
  else if d < 2 * r then q + 1
  else if q % 2 = 0 then q else q + 1

/-- Fuelled binary length: bitLenAux fuel n = number of binary digits of n,
for n < 2^fuel. -/
def bitLenAux : Nat → Nat → Nat
  | 0, _ => 0
  | fuel + 1, n => if n = 0 then 0 else bitLenAux fuel (n / 2) + 1

/-- Number of binary digits of n (correct for n < 2^128, far beyond any
value price * fl07num can take for a JavaScript-representable price). -/
def bitLen (n : Nat) : Nat := bitLenAux 128 n

/-- Model of robuxAfterFee (src/index.js line 120-122):
Math.floor(price * 0.7) computed in binary64 arithmetic.
The exact product price * fl07num / 2^53 lies in the binade
[2^(L-53), 2^(L-52)) where L is the top-bit index of n = price * fl07num;
rounding to 53 significant bits rounds n / 2^(L-52) to the nearest
integer m (ties to even), so the double equals m * 2^(L-105), whose
floor is returned. -/
def robuxAfterFee (price : Nat) : Nat :=
  if price = 0 then 0
  else
    let n := price * fl07num
    let L := bitLen n - 1
    let m := rne n (2 ^ (L - 52))
    if 105 ≤ L then m * 2 ^ (L - 105) else m / 2 ^ (105 - L)

/-- The payout formula the specification states: floor(price * 0.7) in
exact arithmetic. -/
def payoutSpec (price : Nat) : Nat := price * 7 / 10

/-! ### Throttling-aware fetch (src/index.js lines 128-145)

JavaScript source:
  async function fetchWithRetry(url, options = {}, maxRetries = 3) {
    let lastRes = null;
    for (let attempt = 0; attempt <= maxRetries; attempt++) {
      const res = await fetch(url, options);
      lastRes = res;
      if (res.status !== 429) return res;
      const retryAfter = res.headers.get("retry-after");
      const waitMs = retryAfter
        ? Math.max(1000, Math.ceil(Number(retryAfter) * 1000))
        : 1500 * (attempt + 1);
      if (attempt === maxRetries) return res;
      await sleep(waitMs);
    }
    return lastRes;   // unreachable: the loop always returns
  }

The network is modelled by a function from attempt number to the response
which the fetch of that attempt yields; a response carries its HTTP status and the
optional numeric retry-after header (in seconds).  The model returns
both the response the function returns and the list of sleep intervals
(in milliseconds) it performed, in order. -/

/-- An HTTP response as fetchWithRetry inspects it: status code plus the
optional numeric retry-after header (seconds). -/
structure Response where
  status : Nat
  retryAfter : Option ℚ
deriving DecidableEq

/-- The wait interval (ms) computed for a throttled response at a given
attempt index: max(1000, ceil(retryAfter * 1000)) when the header is
present, else 1500 * (attempt + 1). -/
def waitFor (res : Response) (attempt : Nat) : ℤ :=
  match res.retryAfter with
  | some ra => max 1000 ⌈ra * 1000⌉
  | none => 1500 * ((attempt : ℤ) + 1)

/-- Loop body of fetchWithRetry: attempt is the current attempt index,
remaining = maxRetries - attempt the number of additional attempts
allowed.  Returns (returned response, list of sleeps performed). -/
def fetchWithRetryGo (responses : Nat → Response) (attempt : Nat) :
    Nat → Response × List ℤ
  | 0 =>
    -- res.status !== 429 returns res; attempt === maxRetries returns res
    (responses attempt, [])
  | remaining + 1 =>
    let res := responses attempt
    if res.status ≠ 429 then (res, [])
    else
      let rest := fetchWithRetryGo responses (attempt + 1) remaining
      (rest.1, waitFor res attempt :: rest.2)

/-- Model of fetchWithRetry: runs attempts 0 .. maxRetries. -/
def fetchWithRetry (responses : Nat → Response) (maxRetries : Nat) :
    Response × List ℤ :=
  fetchWithRetryGo responses 0 maxRetries

/-! Wait: the 0-fuel case must still return immediately on a non-429
response, which it does (it returns the response unconditionally, and
when status ≠ 429 that is exactly the immediate return; when status =
429 and attempt = maxRetries the code also returns res without
sleeping).  The two coincide, so the single equation is faithful. -/

/-! ### Game-pass link extraction (src/index.js lines 112-118)

JavaScript source:
  function extractGamePassIds(text) {
    if (!text) return [];
    const matches = [...String(text).matchAll(/roblox\.com\/game-pass\/(\d+)/gi)];
    const ids = matches.map((m) => m[1]);
    return [...new Set(ids)];
  }

matchAll with the g flag produces the non-overlapping matches found by
scanning left to right, resuming after the end of each match; the i
flag makes the literal part case-insensitive; \d+ greedily takes the
maximal digit run.  [...new Set(ids)] keeps the first occurrence of
each id, in order.  Text is modelled as a Lean string (JS strings are
sequences of characters; the empty string is falsy and yields []). -/

/-- Case-insensitive literal match: if the pattern (given in lower case)
is a prefix of the text up to ASCII case, return the rest of the text. -/
def matchLitCI : List Char → List Char → Option (List Char)
  | [], rest => some rest
  | _ :: _, [] => none
  | p :: ps, c :: cs => if c.toLower = p then matchLitCI ps cs else none

/-- Greedy \d+ : the maximal leading digit run and the remainder. -/
def takeDigits (l : List Char) : List Char × List Char :=
  (l.takeWhile Char.isDigit, l.dropWhile Char.isDigit)

/-- The literal part of the pattern /roblox\.com\/game-pass\/(\d+)/i. -/
def gamePassPat : List Char := "roblox.com/game-pass/".toList

/-- Left-to-right regex scan of matchAll: at each position try the
pattern; on a match emit the captured digits and resume after the match
(non-overlapping); otherwise advance one character.  Fuel bounds the
recursion by the text length (each step consumes at least one
character, so the fuel is never exhausted early). -/
def scanIdsAux : Nat → List Char → List String
  | 0, _ => []
  | _ + 1, [] => []
  | fuel + 1, c :: cs =>
    match matchLitCI gamePassPat (c :: cs) with
    | some r =>
      match takeDigits r with
      | ([], _) => scanIdsAux fuel cs
      | (ds, r2) => String.mk ds :: scanIdsAux fuel r2
    | none => scanIdsAux fuel cs

/-- The ids of all non-overlapping matches, in match order, duplicates
included (matches.map(m => m[1])). -/
def rawGamePassIds (text : String) : List String :=
  scanIdsAux text.toList.length text.toList

/-- Insertion-order deduplication, as [...new Set(ids)] produces:
keep each id the first time it is seen. -/
def dedupGo : List String → List String → List String
  | _, [] => []
  | seen, x :: xs =>
    if x ∈ seen then dedupGo seen xs else x :: dedupGo (x :: seen) xs

/-- [...new Set(ids)] : first-occurrence deduplication. -/
def dedupFirst (l : List String) : List String := dedupGo [] l

/-- Model of extractGamePassIds. -/
def extractGamePassIds (text : String) : List String :=
  dedupFirst (rawGamePassIds text)

/-! ### Group id extraction (src/index.js lines 57-60)

JavaScript source:
  function extractGroupId(link) {
    const m = link.match(/roblox\.com\/(communities|groups)\/(\d+)/i);
    return m ? m[2] : null;
  }

String.match without the g flag returns the first (leftmost) match;
m[2] is the digit run.  At a given position only one alternative of
(communities|groups) can match (they start with different letters), and
if the alternative matches but no digits follow, the whole attempt at
that start position fails and the scan moves one character forward. -/

/-- One attempt of /roblox\.com\/(communities|groups)\/(\d+)/i at the
head of the text: the captured digit run on success. -/
def groupIdAt (l : List Char) : Option (List Char) :=
  match matchLitCI "roblox.com/".toList l with
  | none => none
  | some r1 =>
    match
      (matchLitCI "communities".toList r1).orElse
        (fun _ => matchLitCI "groups".toList r1) with
    | none => none
    | some r2 =>
      match matchLitCI "/".toList r2 with
      | none => none
      | some r3 =>
        match takeDigits r3 with
        | ([], _) => none
        | (ds, _) => some ds

/-- Leftmost-match scan for extractGroupId, fuel = text length. -/
def groupIdScan : Nat → List Char → Option (List Char)
  | 0, _ => none
  | _ + 1, [] => none
  | fuel + 1, c :: cs =>
    match groupIdAt (c :: cs) with
    | some ds => some ds
    | none => groupIdScan fuel cs

/-- Model of extractGroupId: the digits of the first match, or none. -/
def extractGroupId (link : String) : Option String :=
  (groupIdScan link.toList.length link.toList).map String.mk

/-! ### Group registry records and normalization (src/index.js lines 83-103)

JavaScript source:
  function normalizeGroups(db) {
    const groups = Array.isArray(db?.groups) ? db.groups : [];
    const normalized = groups
      .map((g) => {
        if (typeof g === "string") {
          const gid = extractGroupId(g);
          return { name: gid ? `Group ` + gid : "Group", link: g, waitDays: 14 };
        }
        return {
          name: String(g?.name ?? "Group"),
          link: String(g?.link ?? ""),
          waitDays: Number.isFinite(Number(g?.waitDays)) ? Number(g.waitDays) : 14,
        };
      })
      .filter((g) => g.link);
    db.groups = normalized;
    return db;
  }

The registry file is only ever written by this program (JSON.stringify
of normalized records, or the single seed record), so an entry is either
a legacy plain link string or a record whose fields, when present, carry
their schema types: name and link are JSON strings, waitDays a JSON
number (JSON numbers are finite; a missing field reads as undefined, so
g?.name ?? "Group" falls back exactly when the field is absent, and
Number(undefined) = NaN is not finite, giving waitDays 14). -/

/-- A normalized registry record. -/
structure GroupRecord where
  name : String
  link : String
  waitDays : ℚ
deriving DecidableEq

/-- A raw registry entry as loaded from the JSON file: a legacy plain
link string, or a record with each field possibly absent. -/
inductive RawEntry where
  | legacy (link : String)
  | record (name : Option String) (link : Option String) (waitDays : Option ℚ)
deriving DecidableEq

/-- The map step of normalizeGroups. -/
def normalizeEntry : RawEntry → GroupRecord
  | .legacy s =>
    match extractGroupId s with
    | some gid => ⟨"Group " ++ gid, s, 14⟩
    | none => ⟨"Group", s, 14⟩
  | .record name link waitDays =>
    ⟨name.getD "Group", link.getD "", waitDays.getD 14⟩

/-- Model of normalizeGroups at the groups-list level: none models a
missing or non-array groups field.  .filter((g) => g.link) keeps the
entries whose link is a nonempty string. -/
def normalizeGroups (groups : Option (List RawEntry)) : List GroupRecord :=
  ((groups.getD []).map normalizeEntry).filter (fun g => g.link ≠ "")

/-- The JSON round trip saveDB / loadDB performs on a normalized record:
all three fields are written and read back. -/
def recordToRaw (g : GroupRecord) : RawEntry :=
  .record (some g.name) (some g.link) (some g.waitDays)

/-! ### add_group upsert (src/index.js lines 405-427)

JavaScript source (the part that mutates the registry):
  const groupId = extractGroupId(link);
  if (!groupId) { ...reject...; return; }
  db = normalizeGroups(loadDB());
  db.groups = db.groups || [];
  const idx = db.groups.findIndex((g) => extractGroupId(g.link) === String(groupId));
  const entry = { name, link, waitDays };
  if (idx >= 0) db.groups[idx] = entry;
  else db.groups.push(entry);
  saveDB(db);

groupId is already a string, so String(groupId) = groupId; findIndex
returns the first index whose link extracts to the same id (an entry
whose link has no extractable id compares null === string, false). -/

/-- Model of the add_group upsert on a normalized groups list: none when
the link has no extractable group id (the handler rejects and does not
save), otherwise the saved groups list. -/
def addGroupUpsert (groups : List GroupRecord) (name link : String)
    (waitDays : ℚ) : Option (List GroupRecord) :=
  match extractGroupId link with
  | none => none
  | some gid =>
    let entry : GroupRecord := ⟨name, link, waitDays⟩
    match groups.findIdx? (fun g => extractGroupId g.link == some gid) with
    | some i => some (groups.set i entry)
    | none => some (groups ++ [entry])

/-! ### Per-listing scan processing (src/index.js lines 147-197, 317-364)

JavaScript sources:
  async function fetchGamePassInfo(gamePassId) {
    const res = await fetch(url);
    if (!res.ok) throw new Error(...);
    return res.json();
  }
  async function fetchGamePassDetails(gamePassId) {
    const cookie = process.env.ROBLOSECURITY;
    if (!cookie) throw new Error("ROBLOSECURITY environment variable not set.");
    const res = await fetchWithRetry(url, {...}, 3);
    if (!res.ok) throw new Error(...);
    return res.json();
  }
and the per-listing loop of the scan handler, which wraps each listing
in its own try/catch: a throw from fetchGamePassInfo produces the error
block for that listing only; a throw from fetchGamePassDetails is
caught by the inner try/catch, leaving details = null and regionalOn =
false, and the block still reports price and payout with the
could-not-verify caveat. -/

/-- Product-info response body: the price field under one of the
accepted names (a null or absent field is none; the price itself is the
integer the API delivers). -/
structure PassInfo where
  priceCap : Option Nat     -- info.PriceInRobux
  priceLower : Option Nat   -- info.priceInRobux
  priceAlt : Option Nat     -- info.price
deriving DecidableEq

/-- price = Number(info.PriceInRobux ?? info.priceInRobux ?? info.price ?? 0). -/
def priceOf (info : PassInfo) : Nat :=
  (((info.priceCap.orElse fun _ => info.priceLower).orElse
    fun _ => info.priceAlt).getD 0)

/-- details.priceInformation, as hasRegionalPricing inspects it: three
boolean flags (checked with === true, so an absent flag counts as
false) and an optional enabled-features list (mapped to strings). -/
structure PriceInformation where
  isInActivePriceOptimizationExperiment : Option Bool
  isInPriceOptimizationExperiment : Option Bool
  isPriceOptimized : Option Bool
  enabledFeatures : Option (List String)
deriving DecidableEq

/-- A pricing-experiment lookup response body. -/
structure GamePassDetails where
  priceInformation : Option PriceInformation
deriving DecidableEq

/-- The fixed feature-token list of hasRegionalPricing. -/
def regionalHits : List String :=
  ["RegionalPriceExperiment", "RegionalPricing", "PriceOptimization",
   "PriceOptimizationExperiment", "DynamicPricing"]

/-- Model of hasRegionalPricing (src/index.js lines 176-197). -/
def hasRegionalPricing (details : GamePassDetails) : Bool :=
  match details.priceInformation with
  | none => false
  | some info =>
    if info.isInActivePriceOptimizationExperiment = some true then true
    else if info.isInPriceOptimizationExperiment = some true then true
    else if info.isPriceOptimized = some true then true
    else (info.enabledFeatures.getD []).any (fun x => regionalHits.contains x)

/-- An HTTP response as the details fetch sees it. -/
structure HttpRes where
  status : Nat
  body : GamePassDetails
deriving DecidableEq

/-- res.ok: status in the 200-299 range. -/
def HttpRes.ok (r : HttpRes) : Bool :=
  decide (200 ≤ r.status) && decide (r.status < 300)

/-- Model of fetchGamePassDetails: the cookie is the optional
ROBLOSECURITY credential, res the response fetchWithRetry delivered
(its retry behaviour is modelled separately by fetchWithRetry). -/
def fetchGamePassDetails (cookie : Option String) (res : HttpRes) :
    Except String GamePassDetails :=
  match cookie with
  | none => Except.error "ROBLOSECURITY environment variable not set."
  | some _ =>
    if res.ok then Except.ok res.body
    else Except.error ("Failed to fetch gamepass details (" ++ toString res.status ++ ")")

/-- The outcome of the two upstream calls for each game-pass id:
info is what fetchGamePassInfo delivers or throws, details what
fetchGamePassDetails delivers or throws. -/
structure ScanEnv where
  info : Nat → Except String PassInfo
  details : Nat → Except String GamePassDetails

/-- The link shown in every block. -/
def gamePassLink (gpId : Nat) : String :=
  "https://www.roblox.com/game-pass/" ++ toString gpId

/-- One result block of the scan loop, one constructor per push site:
unreadable  - price falsy: the price-not-readable text       (line 325)
regional    - details ok, regional pricing detected        (line 345)
payout      - details ok, no regional pricing: price and
              "You will receive" payout                    (line 349)
payoutUnverified - details call threw: price and payout plus
              the could-not-verify caveat                  (line 353)
failed      - fetchGamePassInfo threw: error message only  (line 358) -/
inductive ScanBlock where
  | unreadable (link : String)
  | regional (link : String) (price : Nat)
  | payout (link : String) (price receive : Nat)
  | payoutUnverified (link : String) (price receive : Nat)
  | failed (link : String) (msg : String)
deriving DecidableEq

/-- Model of one iteration of the per-listing loop (src/index.js
lines 317-364). -/
def processListing (env : ScanEnv) (gpId : Nat) : ScanBlock :=
  match env.info gpId with
  | .error e => .failed (gamePassLink gpId) e
  | .ok info =>
    let price := priceOf info
    if price = 0 then .unreadable (gamePassLink gpId)
    else
      let receive := robuxAfterFee price
      match env.details gpId with
      | .ok details =>
        if hasRegionalPricing details then .regional (gamePassLink gpId) price
        else .payout (gamePassLink gpId) price receive
      | .error _ => .payoutUnverified (gamePassLink gpId) price receive

/-- The whole per-listing loop over the extracted ids. -/
def processScan (env : ScanEnv) (ids : List Nat) : List ScanBlock :=
  ids.map (processListing env)

/-! ### Cooldown gate (src/index.js lines 273-274 and 291-297)

JavaScript source:
  const scanCooldown = new Map();
  const COOLDOWN_MS = 5000;
  ...
  const now = Date.now();
  const last = scanCooldown.get(message.author.id) || 0;
  if (now - last < COOLDOWN_MS) { ...reject...; return; }
  scanCooldown.set(message.author.id, now);

The map is modelled as a function from requester id to the optionally
stored timestamp; get(...) || 0 defaults an absent entry to 0 (a stored
0 is likewise falsy and reads as 0, the same value). -/

/-- The fixed cooldown window. -/
def COOLDOWN_MS : ℤ := 5000

/-- Model of the cooldown gate: returns (admitted?, updated map). -/
def admitScan (m : Nat → Option ℤ) (id : Nat) (now : ℤ) :
    Bool × (Nat → Option ℤ) :=
  let last := (m id).getD 0
  if now - last < COOLDOWN_MS then (false, m)
  else (true, fun j => if j = id then some now else m j)

/-! ### Report chunking (src/index.js lines 366-376)

JavaScript source:
  const chunks = [];
  let buf = "";
  for (const b of blocks) {
    if ((buf + b + "\n").length > 1800) { chunks.push(buf); buf = ""; }
    buf += b + "\n";
  }
  if (buf.trim()) chunks.push(buf);

Strings are modelled as lists of characters (JS strings are character
sequences and .length counts them). -/

/-- The newline appended after every block. -/
def nlChar : Char := Char.ofNat 10

/-- Model of JavaScript String.prototype.trim: drop whitespace from
both ends. -/
def jsTrim (s : List Char) : List Char :=
  ((s.dropWhile Char.isWhitespace).reverse.dropWhile Char.isWhitespace).reverse

/-- The chunking loop; buf.trim() is truthy iff jsTrim buf is nonempty. -/
def chunkGo : List (List Char) → List Char → List (List Char) → List (List Char)
  | chunks, buf, [] => if jsTrim buf ≠ [] then chunks ++ [buf] else chunks
  | chunks, buf, b :: rest =>
    if 1800 < (buf ++ b ++ [nlChar]).length
    then chunkGo (chunks ++ [buf]) (b ++ [nlChar]) rest
    else chunkGo chunks (buf ++ b ++ [nlChar]) rest

/-- Model of the report chunking: blocks in, chunks out. -/
def chunkBlocks (blocks : List (List Char)) : List (List Char) :=
  chunkGo [] [] blocks

/-- A segment of blocks rendered the way the loop accumulates buf:
each block followed by the newline. -/
def renderSeg (s : List (List Char)) : List Char :=
  (s.map (fun b => b ++ [nlChar])).flatten

/-- A block sequence contains visible content: some character of some
block is not whitespace. -/
def hasInk (b : List Char) : Prop := ∃ c ∈ b, c.isWhitespace = false

instance (b : List Char) : Decidable (hasInk b) :=
  decidable_of_iff (∃ c ∈ b, c.isWhitespace = false) Iff.rfl

/-! ### Concrete fixtures used by the witness theorems -/

/-- A network where the first two attempts are throttled and the third
succeeds. -/
def wRes (j : Nat) : Response :=
  if j < 2 then ⟨429, none⟩ else ⟨200, none⟩

/-- A scan environment where the product-info fetch of listing 5 throws and
every pricing-experiment lookup throws; other listings have price 100. -/
def wEnv : ScanEnv where
  info := fun i =>
    if i = 5 then .error "boom" else .ok ⟨some 100, none, none⟩
  details := fun _ => .error "ROBLOSECURITY environment variable not set."

/-- The seed registry: the one record loadDB initializes the store
with. -/
def wGroups : List GroupRecord :=
  [⟨"Nexus Arc", "https://www.roblox.com/communities/14638702/Nexus-Arc#!/about", 14⟩]

/-- A single result block of 1800 characters. -/
def bigBlock : List Char := List.replicate 1800 'a'

/-! ## Theorems -/

/-- C1: the spec states that for every positive integer price P the
payout is floor(P * 0.7) exactly, 0 for P = 0.  The code computes
Math.floor(P * 0.7) in binary64 arithmetic, and for P = 90 the product
90 * 0.7 evaluates to 62.99999999999999... (the rounding of
90 * fl(0.7) falls below 63), so the code returns 62 where the spec
demands floor(63) = 63.  The remaining conjuncts check the model
against known binary64 results (including the tie at 10 * 0.7 = 7). -/
theorem robux_fee_binary64_divergence :
    robuxAfterFee 90 = 62 ∧ payoutSpec 90 = 63 ∧
    robuxAfterFee 0 = 0 ∧ robuxAfterFee 10 = 7 ∧ robuxAfterFee 100 = 70 := by
  decide

/-- fetchWithRetry, early-return half: if attempts before k are
throttled and attempt k is not, the response of attempt k is returned
and exactly the waits for attempts 0..k-1 are performed. -/
theorem fetchWithRetryGo_early (k : Nat) :
    ∀ (responses : Nat → Response) (attempt remaining : Nat),
    k ≤ remaining →
    (∀ j, j < k → (responses (attempt + j)).status = 429) →
    (responses (attempt + k)).status ≠ 429 →
    fetchWithRetryGo responses attempt remaining =
      (responses (attempt + k),
        (List.range k).map (fun j => waitFor (responses (attempt + j)) (attempt + j))) := by
  induction k with
  | zero =>
    intro responses attempt remaining _ _ hok
    rw [Nat.add_zero] at hok
    cases remaining with
    | zero => simp [fetchWithRetryGo]
    | succ r => simp [fetchWithRetryGo, hok]
  | succ k ih =>
    intro responses attempt remaining hk hthr hok
    cases remaining with
    | zero => omega
    | succ r =>
      have h0 : (responses attempt).status = 429 := by
        have := hthr 0 (by omega)
        simpa using this
      have harr : ∀ j : Nat, attempt + 1 + j = attempt + (j + 1) := by omega
      have ihr := ih responses (attempt + 1) r (by omega)
        (fun j hj => by rw [harr j]; exact hthr (j + 1) (by omega))
        (by rw [harr k]; exact hok)
      simp only [fetchWithRetryGo, h0, ne_eq, not_true_eq_false, if_false, ihr]
      refine Prod.ext ?_ ?_
      · simp only []
        rw [harr k]
      · simp only [List.range_succ_eq_map, List.map_cons, List.map_map]
        rw [Nat.add_zero]
        refine congrArg (waitFor (responses attempt) attempt :: ·) ?_
        refine List.map_congr_left ?_
        intro j _
        simp only [Function.comp_apply]
        rw [harr j]

/-- fetchWithRetry, exhaustion half: if every attempt is throttled, the
loop sleeps after each attempt except the last and returns the last
throttled response. -/
theorem fetchWithRetryGo_exhaust :
    ∀ (remaining : Nat) (responses : Nat → Response) (attempt : Nat),
    (∀ j, j ≤ remaining → (responses (attempt + j)).status = 429) →
    fetchWithRetryGo responses attempt remaining =
      (responses (attempt + remaining),
        (List.range remaining).map
          (fun j => waitFor (responses (attempt + j)) (attempt + j))) := by
  intro remaining
  induction remaining with
  | zero =>
    intro responses attempt _
    simp [fetchWithRetryGo]
  | succ r ih =>
    intro responses attempt hall
    have h0 : (responses attempt).status = 429 := by
      have := hall 0 (by omega)
      simpa using this
    have harr : ∀ j : Nat, attempt + 1 + j = attempt + (j + 1) := by omega
    have ihr := ih responses (attempt + 1)
      (fun j hj => by rw [harr j]; exact hall (j + 1) (by omega))
    simp only [fetchWithRetryGo, h0, ne_eq, not_true_eq_false, if_false, ihr]
    refine Prod.ext ?_ ?_
    · simp only []
      rw [harr r]
    · simp only [List.range_succ_eq_map, List.map_cons, List.map_map]
      rw [Nat.add_zero]
      refine congrArg (waitFor (responses attempt) attempt :: ·) ?_
      refine List.map_congr_left ?_
      intro j _
      simp only [Function.comp_apply]
      rw [harr j]

/-- C2: fetchWithRetry returns any non-429 response on the attempt that
produced it, having slept waitFor (max(1000, ceil(retry-after * 1000))
with a header, else 1500 * (attempt + 1)) after each preceding throttled
attempt; it makes at most maxRetries additional attempts, and when every
attempt is throttled it returns the last 429 response (no exception),
sleeping only after the non-final attempts. -/
theorem fetchWithRetry_spec (responses : Nat → Response) (maxRetries : Nat) :
    (∀ k, k ≤ maxRetries → (∀ j, j < k → (responses j).status = 429) →
      (responses k).status ≠ 429 →
      fetchWithRetry responses maxRetries =
        (responses k, (List.range k).map (fun j => waitFor (responses j) j))) ∧
    ((∀ j, j ≤ maxRetries → (responses j).status = 429) →
      fetchWithRetry responses maxRetries =
        (responses maxRetries,
          (List.range maxRetries).map (fun j => waitFor (responses j) j)) ∧
      (responses maxRetries).status = 429) := by
  constructor
  · intro k hk hthr hok
    have := fetchWithRetryGo_early k responses 0 maxRetries hk
      (fun j hj => by simpa using hthr j hj) (by simpa using hok)
    simpa [fetchWithRetry] using this
  · intro hall
    refine ⟨?_, hall maxRetries (by omega)⟩
    have := fetchWithRetryGo_exhaust maxRetries responses 0
      (fun j hj => by simpa using hall j hj)
    simpa [fetchWithRetry] using this

/-- Witness for C2: with two throttled attempts and no retry-after
header, the third response is returned after fallback waits. -/
theorem fetchWithRetry_spec_witness :
    fetchWithRetry wRes 3 =
      (wRes 2, (List.range 2).map (fun j => waitFor (wRes j) j)) :=
  (fetchWithRetry_spec wRes 3).1 2 (by decide) (by decide) (by decide)

/-- Counterexample for C4 as stated: the claim says a trigger is
admitted only if the elapsed time exceeds (is strictly greater than)
the 5000 ms window, but with no stored timestamp (last = 0) and
now = 5000 the code admits although the elapsed 5000 ms does not
exceed COOLDOWN_MS. -/
theorem cooldown_boundary_cex :
    (admitScan (fun _ => none) 7 5000).1 = true ∧
    ¬ ((5000 : ℤ) - 0 > COOLDOWN_MS) := by decide

/-- C4 (amended): the gate admits iff the elapsed time since the
stored timestamp of the requester (0 when absent) is at least COOLDOWN_MS;
on rejection the map is unchanged, and on admission only the
entry of the requester itself is updated, to now. -/
theorem cooldownGate_spec (m : Nat → Option ℤ) (id : Nat) (now : ℤ) :
    ((admitScan m id now).1 = true ↔ COOLDOWN_MS ≤ now - (m id).getD 0) ∧
    ((admitScan m id now).1 = false → (admitScan m id now).2 = m) ∧
    ((admitScan m id now).1 = true →
      (admitScan m id now).2 id = some now ∧
      ∀ j, j ≠ id → (admitScan m id now).2 j = m j) := by
  have hC : COOLDOWN_MS = 5000 := rfl
  by_cases h : now - (m id).getD 0 < COOLDOWN_MS
  · have he : admitScan m id now = (false, m) := by
      unfold admitScan
      rw [if_pos h]
    rw [he]
    refine ⟨?_, fun _ => rfl, fun hft => absurd hft (by simp)⟩
    constructor
    · intro hh
      exact absurd hh (by simp)
    · intro hh
      omega
  · have he : admitScan m id now =
        (true, fun j => if j = id then some now else m j) := by
      unfold admitScan
      rw [if_neg h]
    rw [he]
    refine ⟨?_, fun hff => absurd hff (by simp),
      fun _ => ⟨by simp, fun j hj => by simp [hj]⟩⟩
    constructor
    · intro _
      omega
    · intro _
      rfl

/-- Witness for C4: a first request at time 10000 is admitted and its
timestamp stored. -/
theorem cooldownGate_spec_witness :
    (admitScan (fun _ => none) 7 10000).1 = true ∧
    (admitScan (fun _ => none) 7 10000).2 7 = some 10000 := by
  have h := (cooldownGate_spec (fun _ => none) 7 10000).1.mpr (by decide)
  exact ⟨h, ((cooldownGate_spec (fun _ => none) 7 10000).2.2 h).1⟩

/-- C5: in one scan over a list of listing ids, a product-info failure
for the id at position k yields the error block (which carries no price
and no payout, only the link and the message) at position k, and every
block of every position is exactly the result of processing its own id —
sibling listings are unaffected and the output covers all ids. -/
theorem scan_isolation_spec (env : ScanEnv) (ids : List Nat) :
    (processScan env ids).length = ids.length ∧
    (∀ (k : Nat) (hk : k < ids.length) (e : String),
      env.info (ids.get ⟨k, hk⟩) = .error e →
      (processScan env ids)[k]? =
        some (ScanBlock.failed (gamePassLink (ids.get ⟨k, hk⟩)) e)) ∧
    (∀ (k : Nat) (hk : k < ids.length),
      (processScan env ids)[k]? = some (processListing env (ids.get ⟨k, hk⟩))) := by
  refine ⟨by simp [processScan], ?_, ?_⟩
  · intro k hk e herr
    have hmap : (processScan env ids)[k]? =
        some (processListing env (ids.get ⟨k, hk⟩)) := by
      simp [processScan, List.getElem?_eq_getElem hk]
    rw [hmap]
    simp only [Option.some.injEq]
    simp only [List.get_eq_getElem] at herr ⊢
    unfold processListing
    rw [herr]
  · intro k hk
    simp [processScan, List.getElem?_eq_getElem hk]

/-- Witness for C5: the info fetch of listing 5 throws "boom"; its block is
the error entry while the neighbouring listings still quote price 100. -/
theorem scan_isolation_spec_witness :
    (processScan wEnv [4, 5, 6])[1]? =
      some (ScanBlock.failed (gamePassLink 5) "boom") :=
  (scan_isolation_spec wEnv [4, 5, 6]).2.1 1 (by decide) "boom" (by rfl)

/-- C6: when the product info is readable with a nonzero price, a
failing pricing-experiment lookup (the code throws both when the
ROBLOSECURITY credential is absent and when the response is non-2xx,
as the two final conjuncts show) degrades the block to the
payout-with-caveat form: price and payout are still reported, and the
block is not the checked-and-absent (payout) form. -/
theorem regional_degrade_spec (env : ScanEnv) (gpId : Nat) (info : PassInfo)
    (hinfo : env.info gpId = .ok info) (hpos : priceOf info ≠ 0)
    (msg : String) (hdet : env.details gpId = .error msg) :
    processListing env gpId =
      ScanBlock.payoutUnverified (gamePassLink gpId) (priceOf info)
        (robuxAfterFee (priceOf info)) ∧
    (∀ q r, ScanBlock.payoutUnverified (gamePassLink gpId) (priceOf info)
        (robuxAfterFee (priceOf info)) ≠ ScanBlock.payout (gamePassLink gpId) q r) ∧
    (∀ res : HttpRes, fetchGamePassDetails none res =
      Except.error "ROBLOSECURITY environment variable not set.") ∧
    (∀ (c : String) (res : HttpRes), res.ok = false →
      fetchGamePassDetails (some c) res =
        Except.error ("Failed to fetch gamepass details (" ++ toString res.status ++ ")")) := by
  refine ⟨?_, fun q r => by simp, fun res => rfl, fun c res hnok => ?_⟩
  · simp only [processListing]
    rw [hinfo]
    simp only [hpos, if_false, hdet]
  · simp [fetchGamePassDetails, hnok]

/-- Witness for C6: listing 4 has price 100 and its details lookup
throws; the block still carries price and payout with the caveat. -/
theorem regional_degrade_spec_witness :
    processListing wEnv 4 =
      ScanBlock.payoutUnverified (gamePassLink 4) 100 (robuxAfterFee 100) :=
  (regional_degrade_spec wEnv 4 ⟨some 100, none, none⟩ (by rfl) (by decide)
    "ROBLOSECURITY environment variable not set." (by rfl)).1

/-- Membership in the deduplicated list: exactly the unseen elements of
the input. -/
theorem mem_dedupGo :
    ∀ (l seen : List String) (x : String),
    x ∈ dedupGo seen l ↔ x ∈ l ∧ x ∉ seen := by
  intro l
  induction l with
  | nil => intro seen x; simp [dedupGo]
  | cons y ys ih =>
    intro seen x
    by_cases hy : y ∈ seen
    · simp only [dedupGo, if_pos hy, ih, List.mem_cons]
      constructor
      · rintro ⟨hm, hs⟩
        exact ⟨Or.inr hm, hs⟩
      · rintro ⟨hm | hm, hs⟩
        · exact absurd (hm ▸ hy) hs
        · exact ⟨hm, hs⟩
    · simp only [dedupGo, if_neg hy, List.mem_cons, ih, List.mem_cons]
      constructor
      · rintro (rfl | ⟨hm, hs⟩)
        · exact ⟨Or.inl rfl, hy⟩
        · exact ⟨Or.inr hm, fun hx => hs (Or.inr hx)⟩
      · rintro ⟨rfl | hm, hs⟩
        · exact Or.inl rfl
        · by_cases hxy : x = y
          · exact Or.inl hxy
          · exact Or.inr ⟨hm, fun hx => (hx.elim hxy hs)⟩

/-- The deduplicated list has no duplicates. -/
theorem dedupGo_nodup :
    ∀ (l seen : List String), (dedupGo seen l).Nodup := by
  intro l
  induction l with
  | nil => intro seen; simp [dedupGo]
  | cons y ys ih =>
    intro seen
    by_cases hy : y ∈ seen
    · simpa [dedupGo, if_pos hy] using ih seen
    · simp only [dedupGo, if_neg hy, List.nodup_cons]
      refine ⟨fun hmem => ?_, ih (y :: seen)⟩
      exact ((mem_dedupGo ys (y :: seen) y).1 hmem).2 (List.mem_cons_self y seen)

/-- Deduplication keeps a subsequence of the input. -/
theorem dedupGo_sublist :
    ∀ (l seen : List String), List.Sublist (dedupGo seen l) l := by
  intro l
  induction l with
  | nil => intro seen; simp [dedupGo]
  | cons y ys ih =>
    intro seen
    by_cases hy : y ∈ seen
    · simpa [dedupGo, if_pos hy] using (ih seen).cons y
    · simpa [dedupGo, if_neg hy] using (ih (y :: seen)).cons₂ y

/-- Deduplication lists elements in order of their first occurrence:
relative to any prefix already processed (whose element set is the seen
accumulator), later kept elements have strictly larger first-occurrence
indices. -/
theorem dedupGo_pairwise :
    ∀ (cur pre seen : List String),
    (∀ x, x ∈ seen ↔ x ∈ pre) →
    (dedupGo seen cur).Pairwise
      (fun a b => (pre ++ cur).indexOf a < (pre ++ cur).indexOf b) := by
  intro cur
  induction cur with
  | nil => intro pre seen _; simp [dedupGo]
  | cons y ys ih =>
    intro pre seen hinv
    by_cases hy : y ∈ seen
    · have hinv2 : ∀ x, x ∈ seen ↔ x ∈ pre ++ [y] := by
        intro x
        rw [List.mem_append, List.mem_singleton]
        constructor
        · intro hx
          exact Or.inl ((hinv x).1 hx)
        · rintro (hx | rfl)
          · exact (hinv x).2 hx
          · exact hy
      have hpw := ih (pre ++ [y]) seen hinv2
      rw [List.append_assoc, List.singleton_append] at hpw
      simpa [dedupGo, if_pos hy] using hpw
    · have hyp : y ∉ pre := fun hp => hy ((hinv y).2 hp)
      simp only [dedupGo, if_neg hy]
      have hinv2 : ∀ x, x ∈ y :: seen ↔ x ∈ pre ++ [y] := by
        intro x
        rw [List.mem_cons, List.mem_append, List.mem_singleton]
        constructor
        · rintro (rfl | hx)
          · exact Or.inr rfl
          · exact Or.inl ((hinv x).1 hx)
        · rintro (hx | rfl)
          · exact Or.inr ((hinv x).2 hx)
          · exact Or.inl rfl
      refine List.Pairwise.cons ?_ ?_
      · intro b hb
        obtain ⟨hbys, hbns⟩ := (mem_dedupGo ys (y :: seen) b).1 hb
        have hbny : b ≠ y := fun hbe => hbns (hbe ▸ List.mem_cons_self y seen)
        have hbnp : b ∉ pre := fun hp =>
          hbns (List.mem_cons_of_mem y ((hinv b).2 hp))
        rw [List.indexOf_append_of_not_mem hyp,
          List.indexOf_append_of_not_mem hbnp,
          List.indexOf_cons_self,
          List.indexOf_cons_ne ys hbny.symm]
        omega
      · have hpw := ih (pre ++ [y]) (y :: seen) hinv2
        rw [List.append_assoc, List.singleton_append] at hpw
        exact hpw

/-- C3: extractGamePassIds returns the identifiers of the
non-overlapping case-insensitive matches (rawGamePassIds) with
duplicates removed: the result has no duplicates, has exactly the
members of the raw match list, is a subsequence of it (so relative
order is match order), is sorted by first-occurrence position in it,
and a text without matches yields the empty list rather than an
error. -/
theorem extractGamePassIds_spec (t : String) :
    (extractGamePassIds t).Nodup ∧
    (∀ x, x ∈ extractGamePassIds t ↔ x ∈ rawGamePassIds t) ∧
    List.Sublist (extractGamePassIds t) (rawGamePassIds t) ∧
    (extractGamePassIds t).Pairwise
      (fun a b => (rawGamePassIds t).indexOf a < (rawGamePassIds t).indexOf b) ∧
    (rawGamePassIds t = [] → extractGamePassIds t = []) := by
  refine ⟨dedupGo_nodup (rawGamePassIds t) [], ?_, dedupGo_sublist (rawGamePassIds t) [], ?_, ?_⟩
  · intro x
    rw [extractGamePassIds, dedupFirst, mem_dedupGo]
    simp
  · have := dedupGo_pairwise (rawGamePassIds t) [] [] (fun x => by simp)
    simpa [extractGamePassIds, dedupFirst] using this
  · intro h
    rw [extractGamePassIds, dedupFirst, h]
    rfl

/-- Witness for C3: a text with no matches yields [], and the same
listing link twice yields exactly one reference. -/
theorem extractGamePassIds_spec_witness :
    extractGamePassIds "no links here" = [] ∧
    extractGamePassIds
      "roblox.com/game-pass/123 roblox.com/game-pass/123" = ["123"] :=
  ⟨(extractGamePassIds_spec "no links here").2.2.2.2 (by rfl), by rfl⟩

/-- A string with a non-whitespace character survives jsTrim. -/
theorem jsTrim_ne_nil_of_hasInk (s : List Char) (h : hasInk s) :
    jsTrim s ≠ [] := by
  intro htr
  obtain ⟨c, hc, hws⟩ := h
  unfold jsTrim at htr
  rw [List.reverse_eq_nil_iff] at htr
  rw [List.dropWhile_eq_nil_iff] at htr
  have hall : ∀ x ∈ s.dropWhile Char.isWhitespace, x.isWhitespace := by
    intro x hx
    exact htr x (List.mem_reverse.mpr hx)
  have hall2 : ∀ x ∈ s, x.isWhitespace := by
    intro x hx
    rw [← List.takeWhile_append_dropWhile Char.isWhitespace s,
      List.mem_append] at hx
    rcases hx with hx | hx
    · exact List.mem_takeWhile_imp hx
    · exact hall x hx
  rw [hall2 c hc] at hws
  exact absurd hws (by simp)

/-- renderSeg of a single block. -/
theorem renderSeg_singleton (b : List Char) :
    renderSeg [b] = b ++ [nlChar] := by
  simp [renderSeg]

/-- renderSeg distributes over appending one block. -/
theorem renderSeg_append_singleton (s : List (List Char)) (b : List Char) :
    renderSeg (s ++ [b]) = renderSeg s ++ (b ++ [nlChar]) := by
  simp [renderSeg]

/-- A block with ink makes the rendered segment have ink. -/
theorem hasInk_renderSeg (s : List (List Char)) (b : List Char)
    (hb : b ∈ s) (h : hasInk b) : hasInk (renderSeg s) := by
  obtain ⟨c, hc, hws⟩ := h
  refine ⟨c, ?_, hws⟩
  unfold renderSeg
  rw [List.mem_flatten]
  exact ⟨b ++ [nlChar], List.mem_map_of_mem _ hb, List.mem_append_left _ hc⟩

/-- Unfolding equation of the chunking loop, empty input. -/
theorem chunkGo_nil (chunks : List (List Char)) (buf : List Char) :
    chunkGo chunks buf [] =
      if jsTrim buf ≠ [] then chunks ++ [buf] else chunks := rfl

/-- Unfolding equation of the chunking loop, one step. -/
theorem chunkGo_cons (chunks : List (List Char)) (buf b : List Char)
    (rest : List (List Char)) :
    chunkGo chunks buf (b :: rest) =
      if 1800 < (buf ++ b ++ [nlChar]).length
      then chunkGo (chunks ++ [buf]) (b ++ [nlChar]) rest
      else chunkGo chunks (buf ++ b ++ [nlChar]) rest := rfl

/-- Invariant proof for the chunking loop: starting from a partial
segment curSeg (whose rendering is the current buffer and fits the
budget) and an arbitrary already-emitted chunk list, the loop cuts
curSeg ++ blocks into nonempty consecutive segments whose renderings
all fit the 1800-character budget and appends exactly those renderings,
provided every block is at most 1799 characters and has ink. -/
theorem chunkGo_spec (blocks : List (List Char)) :
    ∀ (curSeg chunks : List (List Char)),
    (∀ b ∈ blocks, b.length ≤ 1799 ∧ hasInk b) →
    (∀ b ∈ curSeg, hasInk b) →
    (renderSeg curSeg).length ≤ 1800 →
    ∃ segs : List (List (List Char)),
      segs.flatten = curSeg ++ blocks ∧
      (∀ s ∈ segs, s ≠ [] ∧ (renderSeg s).length ≤ 1800) ∧
      chunkGo chunks (renderSeg curSeg) blocks = chunks ++ segs.map renderSeg := by
  induction blocks with
  | nil =>
    intro curSeg chunks _ hcur hlen
    cases curSeg with
    | nil =>
      refine ⟨[], by simp, by simp, ?_⟩
      rw [chunkGo_nil, if_neg (by simp [renderSeg, jsTrim])]
      simp
    | cons b rest =>
      have hink : hasInk (renderSeg (b :: rest)) :=
        hasInk_renderSeg (b :: rest) b (List.mem_cons_self b rest)
          (hcur b (List.mem_cons_self b rest))
      refine ⟨[b :: rest], by simp, ?_, ?_⟩
      · intro s hs
        rw [List.mem_singleton] at hs
        subst hs
        exact ⟨by simp, hlen⟩
      · rw [chunkGo_nil, if_pos (jsTrim_ne_nil_of_hasInk _ hink), List.map_singleton]
  | cons b rest ih =>
    intro curSeg chunks hblocks hcur hlen
    have hb := hblocks b (List.mem_cons_self b rest)
    have hrest : ∀ x ∈ rest, x.length ≤ 1799 ∧ hasInk x :=
      fun x hx => hblocks x (List.mem_cons_of_mem b hx)
    by_cases hov : 1800 < (renderSeg curSeg ++ b ++ [nlChar]).length
    · -- flush: the current buffer is emitted, b starts a fresh segment
      have hne : curSeg ≠ [] := by
        rintro rfl
        have : (renderSeg ([] : List (List Char)) ++ b ++ [nlChar]).length
            = b.length + 1 := by
          simp [renderSeg]
        rw [this] at hov
        omega
      obtain ⟨segs, hflat, hcond, heq⟩ :=
        ih [b] (chunks ++ [renderSeg curSeg]) hrest
          (fun x hx => by
            rw [List.mem_singleton] at hx
            subst hx
            exact hb.2)
          (by
            rw [renderSeg_singleton]
            have : (b ++ [nlChar]).length = b.length + 1 := by simp
            rw [this]
            omega)
      refine ⟨curSeg :: segs, ?_, ?_, ?_⟩
      · rw [List.flatten_cons, hflat]
        simp
      · intro s hs
        rcases List.mem_cons.mp hs with rfl | hs
        · exact ⟨hne, hlen⟩
        · exact hcond s hs
      · rw [chunkGo_cons, if_pos hov, ← renderSeg_singleton, heq, List.map_cons]
        simp [List.append_assoc]
    · -- no flush: b joins the current segment
      have hconcat : renderSeg curSeg ++ b ++ [nlChar] = renderSeg (curSeg ++ [b]) := by
        rw [renderSeg_append_singleton, List.append_assoc]
      obtain ⟨segs, hflat, hcond, heq⟩ :=
        ih (curSeg ++ [b]) chunks hrest
          (fun x hx => by
            rcases List.mem_append.mp hx with hx | hx
            · exact hcur x hx
            · rw [List.mem_singleton] at hx
              subst hx
              exact hb.2)
          (by
            rw [← hconcat]
            omega)
      refine ⟨segs, ?_, hcond, ?_⟩
      · rw [hflat]
        simp
      · rw [chunkGo_cons, if_neg hov, hconcat]
        exact heq

set_option maxRecDepth 100000 in
/-- Counterexample for C7 as stated: the claim promises every chunk at
or under the fixed 1800-character budget for every block sequence, but
a single 1800-character block produces a 1801-character chunk (the
flush also emits a leading empty chunk). -/
theorem chunk_budget_cex :
    ¬ (∀ c ∈ chunkBlocks [bigBlock], c.length ≤ 1800) := by decide

/-- C7 (amended): provided every block is at most 1799 characters and
contains a non-whitespace character — true of every block the scan
emits for ordinarily-sized listing links — the chunking splits the
blocks into nonempty consecutive segments (never inside a block),
preserves their order, emits every block exactly once (the
concatenation of the segments is the block list), and every chunk, the
rendering of its segment, is at most 1800 characters. -/
theorem chunkBlocks_spec (blocks : List (List Char))
    (hb : ∀ b ∈ blocks, b.length ≤ 1799 ∧ hasInk b) :
    ∃ segs : List (List (List Char)),
      segs.flatten = blocks ∧
      (∀ s ∈ segs, s ≠ []) ∧
      chunkBlocks blocks = segs.map renderSeg ∧
      (∀ c ∈ chunkBlocks blocks, c.length ≤ 1800) := by
  obtain ⟨segs, hflat, hcond, heq⟩ :=
    chunkGo_spec blocks [] [] hb (by simp) (by simp [renderSeg])
  have hmain : chunkBlocks blocks = segs.map renderSeg := by
    have : renderSeg [] = ([] : List Char) := by simp [renderSeg]
    rw [chunkBlocks, ← this, heq, List.nil_append]
  refine ⟨segs, by simpa using hflat, fun s hs => (hcond s hs).1, hmain, ?_⟩
  intro c hc
  rw [hmain] at hc
  obtain ⟨s, hs, rfl⟩ := List.mem_map.mp hc
  exact (hcond s hs).2

/-- Witness for C7: two one-character blocks fit one chunk. -/
theorem chunkBlocks_spec_witness :
    ∃ segs : List (List (List Char)),
      segs.flatten = [['a'], ['b']] ∧
      (∀ s ∈ segs, s ≠ []) ∧
      chunkBlocks [['a'], ['b']] = segs.map renderSeg ∧
      (∀ c ∈ chunkBlocks [['a'], ['b']], c.length ≤ 1800) :=
  chunkBlocks_spec [['a'], ['b']] (by decide)

/-- In a list whose filterMap image is duplicate-free, two positions
mapping to the same value coincide. -/
theorem filterMap_nodup_idx_unique {α β : Type} (l : List α) (f : α → Option β)
    (hnd : (l.filterMap f).Nodup) :
    ∀ (i j : Nat) (b : β) (xi xj : α),
    l[i]? = some xi → l[j]? = some xj →
    f xi = some b → f xj = some b → i = j := by
  induction l with
  | nil =>
    intro i j b xi xj hgi
    simp at hgi
  | cons x xs ih =>
    intro i j b xi xj hgi hgj hfi hfj
    have hnd' : (xs.filterMap f).Nodup := by
      cases hfx : f x with
      | none => rwa [List.filterMap_cons_none hfx] at hnd
      | some c =>
        rw [List.filterMap_cons_some hfx] at hnd
        exact hnd.of_cons
    cases i with
    | zero =>
      cases j with
      | zero => rfl
      | succ j2 =>
        exfalso
        rw [List.getElem?_cons_zero, Option.some.injEq] at hgi
        subst hgi
        rw [List.getElem?_cons_succ] at hgj
        have hmem : b ∈ xs.filterMap f :=
          List.mem_filterMap.mpr ⟨xj, List.getElem?_mem hgj, hfj⟩
        rw [List.filterMap_cons_some hfi] at hnd
        exact (List.nodup_cons.mp hnd).1 hmem
    | succ i2 =>
      cases j with
      | zero =>
        exfalso
        rw [List.getElem?_cons_zero, Option.some.injEq] at hgj
        subst hgj
        rw [List.getElem?_cons_succ] at hgi
        have hmem : b ∈ xs.filterMap f :=
          List.mem_filterMap.mpr ⟨xi, List.getElem?_mem hgi, hfi⟩
        rw [List.filterMap_cons_some hfj] at hnd
        exact (List.nodup_cons.mp hnd).1 hmem
      | succ j2 =>
        rw [List.getElem?_cons_succ] at hgi hgj
        have := ih hnd' i2 j2 b xi xj hgi hgj hfi hfj
        omega

/-- Replacing an element by one with the same filterMap image leaves
the filterMap output unchanged. -/
theorem filterMap_set_eq {α β : Type} (f : α → Option β) :
    ∀ (l : List α) (i : Nat) (a xi : α),
    l[i]? = some xi → f a = f xi →
    (l.set i a).filterMap f = l.filterMap f := by
  intro l
  induction l with
  | nil =>
    intro i a xi h
    simp at h
  | cons x xs ih =>
    intro i a xi h hf
    cases i with
    | zero =>
      rw [List.getElem?_cons_zero, Option.some.injEq] at h
      subst h
      rw [List.set_cons_zero]
      cases hfx : f x with
      | none => simp [List.filterMap_cons, hfx, hf ▸ hfx]
      | some c => simp [List.filterMap_cons, hfx, hf ▸ hfx]
    | succ i2 =>
      rw [List.getElem?_cons_succ] at h
      rw [List.set_cons_succ]
      cases hfx : f x with
      | none => simp [List.filterMap_cons, hfx, ih i2 a xi h hf]
      | some c => simp [List.filterMap_cons, hfx, ih i2 a xi h hf]

/-- C8: when the group id of the link is extractable and the registry
has pairwise distinct extracted ids, add_group replaces the entry with
the matching extracted id when one exists (the i-th, for any matching
index) and appends a new entry otherwise, and the saved registry keeps
its extracted ids pairwise distinct: dedup is by extracted id only. -/
theorem addGroupUpsert_spec (groups : List GroupRecord) (name link : String)
    (waitDays : ℚ) (gid : String)
    (hid : extractGroupId link = some gid)
    (hnodup : (groups.filterMap (fun g => extractGroupId g.link)).Nodup) :
    ∃ out, addGroupUpsert groups name link waitDays = some out ∧
      ((∀ g ∈ groups, extractGroupId g.link ≠ some gid) →
        out = groups ++ [⟨name, link, waitDays⟩]) ∧
      (∀ (i : Nat) (hi : i < groups.length),
        extractGroupId (groups.get ⟨i, hi⟩).link = some gid →
        out = groups.set i ⟨name, link, waitDays⟩) ∧
      (out.filterMap (fun g => extractGroupId g.link)).Nodup := by
  cases hfind : groups.findIdx? (fun g => extractGroupId g.link == some gid) with
  | none =>
    have heq : addGroupUpsert groups name link waitDays
        = some (groups ++ [⟨name, link, waitDays⟩]) := by
      simp only [addGroupUpsert, hid, hfind]
    have hall : ∀ g ∈ groups, ¬ (extractGroupId g.link = some gid) := by
      intro g hg hcontra
      have hfalse := List.findIdx?_eq_none_iff.mp hfind g hg
      rw [hcontra] at hfalse
      simp at hfalse
    refine ⟨groups ++ [⟨name, link, waitDays⟩], heq, fun _ => rfl, ?_, ?_⟩
    · intro i hi hmatch
      simp only [List.get_eq_getElem] at hmatch
      exact absurd hmatch (hall (groups[i]) (List.getElem_mem hi))
    · rw [List.filterMap_append]
      have hone : (([⟨name, link, waitDays⟩] : List GroupRecord).filterMap
          (fun g => extractGroupId g.link)) = [gid] := by
        simp [List.filterMap_cons, hid]
      rw [hone]
      refine List.Nodup.append hnodup (List.nodup_singleton gid) ?_
      intro a ha hb
      rw [List.mem_singleton] at hb
      subst hb
      obtain ⟨g, hg, hfg⟩ := List.mem_filterMap.mp ha
      exact hall g hg hfg
  | some i =>
    obtain ⟨hi, hpi, -⟩ := List.findIdx?_eq_some_iff_getElem.mp hfind
    rw [beq_iff_eq] at hpi
    have heq : addGroupUpsert groups name link waitDays
        = some (groups.set i ⟨name, link, waitDays⟩) := by
      simp only [addGroupUpsert, hid, hfind]
    refine ⟨groups.set i ⟨name, link, waitDays⟩, heq, ?_, ?_, ?_⟩
    · intro hno
      exact absurd hpi (hno (groups[i]) (List.getElem_mem hi))
    · intro j hj hmatch
      simp only [List.get_eq_getElem] at hmatch
      have hj' : j = i := by
        refine filterMap_nodup_idx_unique groups (fun g => extractGroupId g.link)
          hnodup j i gid (groups[j]) (groups[i]) ?_ ?_ hmatch hpi
        · exact List.getElem?_eq_getElem hj
        · exact List.getElem?_eq_getElem hi
      subst hj'
      rfl
    · rw [filterMap_set_eq (fun g => extractGroupId g.link) groups i
        ⟨name, link, waitDays⟩ (groups[i]) (List.getElem?_eq_getElem hi)
        (by simpa using hid.trans hpi.symm)]
      exact hnodup

/-- Witness for C8: adding a fresh group to the seed registry appends
it (ids "14638702" and "9" differ). -/
theorem addGroupUpsert_spec_witness :
    addGroupUpsert wGroups "B" "https://www.roblox.com/groups/9/b" 7
      = some (wGroups ++ [⟨"B", "https://www.roblox.com/groups/9/b", 7⟩]) := by
  obtain ⟨out, h1, h2, h3, h4⟩ :=
    addGroupUpsert_spec wGroups "B" "https://www.roblox.com/groups/9/b" 7 "9"
      (by decide) (by decide)
  rw [h2 (by decide)] at h1
  exact h1

/-- Normalizing the JSON round trip of a normalized record returns the
record unchanged: its name is already a string, its link a string, its
waitDays a finite number. -/
theorem normalizeEntry_roundtrip (g : GroupRecord) :
    normalizeEntry (recordToRaw g) = g := rfl

/-- C10: normalizeGroups is idempotent — applying it to the (saved and
reloaded) output of a previous normalization returns exactly that
output: every entry already has a string name, a nonempty string link
and a finite numeric waitDays, and each is preserved as-is (the filter
drops nothing because every normalized link is nonempty). -/
theorem normalizeGroups_idempotent (groups : Option (List RawEntry)) :
    normalizeGroups (some ((normalizeGroups groups).map recordToRaw))
      = normalizeGroups groups := by
  have key : ∀ (l : List GroupRecord), (∀ g ∈ l, g.link ≠ "") →
      ((l.map recordToRaw).map normalizeEntry).filter (fun g => g.link ≠ "") = l := by
    intro l hl
    rw [List.map_map]
    have hmap : l.map (normalizeEntry ∘ recordToRaw) = l := by
      have hcg : ∀ g ∈ l, (normalizeEntry ∘ recordToRaw) g = id g :=
        fun g _ => normalizeEntry_roundtrip g
      rw [List.map_congr_left hcg, List.map_id]
    rw [hmap]
    apply List.filter_eq_self.mpr
    intro g hg
    simpa using hl g hg
  have houter : normalizeGroups (some ((normalizeGroups groups).map recordToRaw))
      = (((normalizeGroups groups).map recordToRaw).map normalizeEntry).filter
          (fun g => g.link ≠ "") := rfl
  rw [houter]
  apply key
  intro g hg
  unfold normalizeGroups at hg
  have := (List.mem_filter.mp hg).2
  simpa using this

/-! ### Concrete evaluations checking the embedding against known
JavaScript behaviour -/

example : robuxAfterFee 0 = 0 := by decide

example : robuxAfterFee 1 = 0 := by decide

example : robuxAfterFee 10 = 7 := by decide

example : robuxAfterFee 100 = 70 := by decide

example : robuxAfterFee 90 = 62 := by decide

example : payoutSpec 90 = 63 := by decide

example :
    rawGamePassIds "roblox.com/game-pass/123 roblox.com/game-pass/123"
      = ["123", "123"] := by decide

example :
    extractGamePassIds "roblox.com/game-pass/123 roblox.com/game-pass/123"
      = ["123"] := by decide

example : extractGamePassIds "no links here" = [] := by decide

example :
    extractGamePassIds "see ROBLOX.com/Game-Pass/77x" = ["77"] := by decide

example :
    extractGroupId "https://www.roblox.com/communities/14638702/Nexus-Arc#!/about"
      = some "14638702" := by decide

example : extractGroupId "https://www.roblox.com/groups/5/x" = some "5" := by decide

example : extractGroupId "https://example.com/groups/5" = none := by decide

example :
    normalizeGroups (some [.legacy "https://www.roblox.com/groups/5/x",
                           .record (some "A") none (some 3)])
      = [⟨"Group 5", "https://www.roblox.com/groups/5/x", 14⟩] := by decide

example :
    chunkBlocks [['a', 'b'], ['c']] = [['a', 'b', nlChar, 'c', nlChar]] := by decide
